import Mathlib

/-!
Shallow embedding of the Penguin password generator core
(src/lib/mixer.rs and src/lib/lib.rs), together with proofs about it.

Rust strings are modelled as lists of Unicode scalar values
(List Char) paired with an explicit UTF-8 byte-length function,
because the Rust code measures and truncates strings in UTF-8 bytes
(String::len and String::truncate), which is observable on
multi-byte input words.  A computation that would panic in Rust
(String::truncate off a char boundary, or the unreachable Penguin arm
of the separator match) is modelled as Option.none.

The ambient rand::thread_rng is modelled as an arbitrary stream of
naturals plus a cursor; rng.gen_range(0..n) consumes the next stream
element reduced mod n.  A theorem quantified over all streams covers
every possible sequence of random draws the real generator can make.

The two Rust while-loops whose iteration count depends on byte length
(the padding loop and the character-mixing loop) are written with an
explicit fuel argument; the wrappers padLoop and charMixLoop supply
fuel  m.length - byteLen password , which is exactly enough because
every iteration appends at least one byte.  All other loops recurse
structurally on the data they consume.
-/

/-- Rust String / str-slice contents, as the list of its chars. -/
abbrev RStr := List Char

/-- UTF-8 byte length of one char (Rust char::len_utf8). -/
def utf8Len (c : Char) : Nat :=
  if c.val < 128 then 1
  else if c.val < 2048 then 2
  else if c.val < 65536 then 3
  else 4

/-- Rust String::len - the UTF-8 byte length of the string. -/
def byteLen (s : RStr) : Nat := (s.map utf8Len).sum

/-- Every char of the string is a single UTF-8 byte, i.e. ASCII. -/
def oneByte (s : RStr) : Prop := ∀ c ∈ s, utf8Len c = 1

instance (s : RStr) : Decidable (oneByte s) :=
  inferInstanceAs (Decidable (∀ c ∈ s, utf8Len c = 1))

/-- Model of rand::thread_rng: an arbitrary stream of draws and a cursor. -/
structure Rng where
  seq : Nat → Nat
  pos : Nat

/-- Model of rng.gen_range(0..n): the next stream value reduced mod n. -/
def genRange (n : Nat) (r : Rng) : Nat × Rng :=
  (r.seq r.pos % n, ⟨r.seq, r.pos + 1⟩)

/-- One Vec::swap step used by the Fisher-Yates shuffle. -/
def listSwap (l : List α) (i j : Nat) : List α :=
  match l.get? i, l.get? j with
  | some a, some b => (l.set i b).set j a
  | _, _ => l

/-- Fisher-Yates loop of rand SliceRandom::shuffle: the Rust loop runs
i = len-1, len-2, ..., 1 and swaps index i with gen_range(0..=i). -/
def fyGo : List α → Nat → Rng → List α × Rng
  | l, 0, r => (l, r)
  | l, i + 1, r =>
      let p := genRange (i + 2) r
      fyGo (listSwap l (i + 1) p.1) i p.2

/-- rand SliceRandom::shuffle. -/
def fisherYates (l : List α) (r : Rng) : List α × Rng :=
  fyGo l (l.length - 1) r

/-- Character set constant NUMBERS of mixer.rs. -/
def NUMBERS : RStr := "0123456789".toList

/-- Character set constant SPECIAL_CHARS of mixer.rs. -/
def SPECIAL_CHARS : RStr := "!@#$%^&*".toList

/-- Character set constant LOWERCASE of mixer.rs. -/
def LOWERCASE : RStr := "abcdefghijklmnopqrstuvwxyz".toList

/-- Character set constant UPPERCASE of mixer.rs. -/
def UPPERCASE : RStr := "ABCDEFGHIJKLMNOPQRSTUVWXYZ".toList

/-- The all_chars superset built (twice, identically) in mixer.rs:
format!("{}{}{}{}", LOWERCASE, UPPERCASE, NUMBERS, SPECIAL_CHARS). -/
def all_chars : RStr := LOWERCASE ++ UPPERCASE ++ NUMBERS ++ SPECIAL_CHARS

/-- ComplexityLevel enum of mixer.rs. -/
inductive ComplexityLevel where
  | Basic
  | Medium
  | Hard
  | Penguin
deriving DecidableEq

/-- PenguinMixer struct of mixer.rs. -/
structure PenguinMixer where
  length : Nat
  complexity : ComplexityLevel
  use_whole_words : Bool
deriving DecidableEq

/-- impl Default for PenguinMixer. -/
def PenguinMixer.default : PenguinMixer :=
  { length := 12, complexity := .Medium, use_whole_words := true }

/-- PenguinMixer::new. -/
def PenguinMixer.new (complexity : ComplexityLevel) (use_whole_words : Bool)
    (length : Nat) : PenguinMixer :=
  { complexity := complexity, use_whole_words := use_whole_words, length := length }

/-- The for-loop of generate_penguin_password: push n random chars of
all_chars onto password. -/
def penguinGo : Nat → RStr → Rng → RStr × Rng
  | 0, password, r => (password, r)
  | n + 1, password, r =>
      let p := genRange all_chars.length r
      penguinGo n (password ++ [all_chars.getD p.1 ' ']) p.2

/-- PenguinMixer::generate_penguin_password. -/
def generate_penguin_password (r : Rng) : RStr × Rng :=
  penguinGo 64 [] r

/-- The whole-word while-loop of generate_regular_password
(while password.len() < self.length and index < available_indices.len()):
append the next word of the shuffled index list, then the separator
selected by the complexity level.  The Penguin arm is the Rust
unreachable! panic, modelled as none. -/
def wholeLoop (m : PenguinMixer) (base : List RStr) :
    List Nat → RStr → Rng → Option (RStr × Rng)
  | [], password, r => some (password, r)
  | idx :: rest, password, r =>
      if byteLen password < m.length then
        let withWord := password ++ base.getD idx []
        match m.complexity with
        | .Basic =>
            let p := genRange NUMBERS.length r
            wholeLoop m base rest (withWord ++ [NUMBERS.getD p.1 ' ']) p.2
        | .Medium | .Hard =>
            let p := genRange SPECIAL_CHARS.length r
            let q := genRange NUMBERS.length p.2
            wholeLoop m base rest
              (withWord ++ [SPECIAL_CHARS.getD p.1 ' ', NUMBERS.getD q.1 ' ']) q.2
        | .Penguin => none
      else some (password, r)

/-- Fuelled form of the padding while-loop of generate_regular_password
(while password.len() < self.length: push a random all_chars char). -/
def padLoopF (len : Nat) : Nat → RStr → Rng → RStr × Rng
  | 0, password, r => (password, r)
  | fuel + 1, password, r =>
      if byteLen password < len then
        let p := genRange all_chars.length r
        padLoopF len fuel (password ++ [all_chars.getD p.1 ' ']) p.2
      else (password, r)

/-- The padding while-loop; every iteration appends at least one byte, so
fuel  len - byteLen password  is exactly enough. -/
def padLoop (m : PenguinMixer) (password : RStr) (r : Rng) : RStr × Rng :=
  padLoopF m.length (m.length - byteLen password) password r

/-- Fuelled form of the character-mixing while-loop of
generate_regular_password.  Each iteration pushes one char chosen by
password.len() % 4 (byte length!) and the complexity level; the
Penguin arm is the Rust unreachable! panic, modelled as none. -/
def charMixLoopF (m : PenguinMixer) (pool : RStr) :
    Nat → RStr → Rng → Option (RStr × Rng)
  | 0, password, r => some (password, r)
  | fuel + 1, password, r =>
      if byteLen password < m.length then
        match m.complexity with
        | .Basic =>
            if byteLen password % 4 = 0 then
              let p := genRange NUMBERS.length r
              charMixLoopF m pool fuel (password ++ [NUMBERS.getD p.1 ' ']) p.2
            else if !pool.isEmpty then
              let p := genRange pool.length r
              charMixLoopF m pool fuel (password ++ [pool.getD p.1 ' ']) p.2
            else
              let p := genRange LOWERCASE.length r
              charMixLoopF m pool fuel (password ++ [LOWERCASE.getD p.1 ' ']) p.2
        | .Medium | .Hard =>
            match byteLen password % 4 with
            | 0 =>
                let p := genRange SPECIAL_CHARS.length r
                charMixLoopF m pool fuel (password ++ [SPECIAL_CHARS.getD p.1 ' ']) p.2
            | 1 =>
                let p := genRange NUMBERS.length r
                charMixLoopF m pool fuel (password ++ [NUMBERS.getD p.1 ' ']) p.2
            | _ =>
                if !pool.isEmpty then
                  let p := genRange pool.length r
                  charMixLoopF m pool fuel (password ++ [pool.getD p.1 ' ']) p.2
                else
                  let p := genRange LOWERCASE.length r
                  charMixLoopF m pool fuel (password ++ [LOWERCASE.getD p.1 ' ']) p.2
        | .Penguin => none
      else some (password, r)

/-- The character-mixing while-loop; every iteration appends at least one
byte, so fuel  m.length - byteLen password  is exactly enough. -/
def charMixLoop (m : PenguinMixer) (pool : RStr) (password : RStr) (r : Rng) :
    Option (RStr × Rng) :=
  charMixLoopF m pool (m.length - byteLen password) password r

/-- Walk of String::truncate below the current byte length: keep chars while
their bytes fit; reaching a char that straddles the cut is the Rust
char-boundary panic, modelled as none. -/
def truncGo : RStr → Nat → Option RStr
  | _, 0 => some []
  | [], _ + 1 => none
  | c :: rest, n + 1 =>
      if utf8Len c ≤ n + 1 then (truncGo rest (n + 1 - utf8Len c)).map (fun t => c :: t)
      else none

/-- Rust String::truncate(n): a no-op when n is at least the byte length,
otherwise keep exactly n bytes, panicking (none) off a char boundary. -/
def truncateRStr (s : RStr) (n : Nat) : Option RStr :=
  if n < byteLen s then truncGo s n else some s

/-- Tail of generate_regular_password: truncate to self.length bytes and,
for Hard complexity only, shuffle the characters of the result. -/
def finishRegular (m : PenguinMixer) (password : RStr) (r : Rng) :
    Option (RStr × Rng) :=
  match truncateRStr password m.length with
  | none => none
  | some pw =>
      match m.complexity with
      | .Hard => some (fisherYates pw r)
      | _ => some (pw, r)

/-- PenguinMixer::generate_regular_password. -/
def generate_regular_password (m : PenguinMixer) (base_input : List RStr)
    (r : Rng) : Option (RStr × Rng) :=
  if m.use_whole_words then
    let p := fisherYates (List.range base_input.length) r
    (wholeLoop m base_input p.1 [] p.2).bind fun q =>
      let pq := padLoop m q.1 q.2
      finishRegular m pq.1 pq.2
  else
    let p := fisherYates (List.range base_input.length) r
    let combined := (p.1.map (fun idx => base_input.getD idx [])).flatten
    (charMixLoop m combined [] p.2).bind fun q => finishRegular m q.1 q.2

/-- PenguinMixer::mix_password. -/
def mix_password (m : PenguinMixer) (base_input : List RStr) (r : Rng) :
    Option (RStr × Rng) :=
  if base_input.isEmpty then some ([], r)
  else
    match m.complexity with
    | .Penguin => some (generate_penguin_password r)
    | _ => generate_regular_password m base_input r

/-- The mixer-selection match at the top of Penguin::generate_password
(lib.rs): the all-None bundle takes PenguinMixer::default(), any other
triple defaults each unset field independently. -/
def resolveMixer (complexity : Option ComplexityLevel) (use_whole_words : Option Bool)
    (length : Option Nat) : PenguinMixer :=
  match complexity, use_whole_words, length with
  | none, none, none => PenguinMixer.default
  | complexity, use_whole_words, length =>
      PenguinMixer.new (complexity.getD .Medium) (use_whole_words.getD true)
        (length.getD 12)

/-- The collection for-loop of Penguin::generate_password: generate count
passwords in order with the same mixer and rng. -/
def genLoop (m : PenguinMixer) (base : List RStr) :
    Nat → Rng → Option (List RStr × Rng)
  | 0, r => some ([], r)
  | n + 1, r =>
      match mix_password m base r with
      | none => none
      | some (s, r1) =>
          match genLoop m base n r1 with
          | none => none
          | some (rest, r2) => some (s :: rest, r2)

/-- Penguin::generate_password (lib.rs). -/
def generate_password (base_input : List RStr) (count : Nat)
    (complexity : Option ComplexityLevel) (use_whole_words : Option Bool)
    (length : Option Nat) (r : Rng) : Option (List RStr × Rng) :=
  genLoop (resolveMixer complexity use_whole_words length) base_input count r

/-- Interleaving of words with their separators, for stating the whole-word
build-phase claim: word1 sep1 word2 sep2 ... -/
def interleave (ws seps : List RStr) : RStr :=
  (List.zipWith (fun w s => w ++ s) ws seps).flatten

/-- Shape of one separator per complexity level: Basic is one digit,
Medium and Hard one special char then one digit. -/
def sepOk : ComplexityLevel → RStr → Prop
  | .Basic, s => ∃ d ∈ NUMBERS, s = [d]
  | .Medium, s => ∃ sp ∈ SPECIAL_CHARS, ∃ d ∈ NUMBERS, s = [sp, d]
  | .Hard, s => ∃ sp ∈ SPECIAL_CHARS, ∃ d ∈ NUMBERS, s = [sp, d]
  | .Penguin, _ => False

/-- Membership in the combined pool, with the lowercase fallback used when
the pool is empty. -/
def poolOk (pool : RStr) (c : Char) : Bool :=
  if pool.isEmpty then decide (c ∈ LOWERCASE) else decide (c ∈ pool)

/-- Character class required at position i of a character-mixing-mode
string by the 4-position cycle the spec describes. -/
def posOk (comp : ComplexityLevel) (pool : RStr) (i : Nat) (c : Char) : Bool :=
  match comp with
  | .Basic => if i % 4 = 0 then decide (c ∈ NUMBERS) else poolOk pool c
  | .Medium | .Hard =>
      match i % 4 with
      | 0 => decide (c ∈ SPECIAL_CHARS)
      | 1 => decide (c ∈ NUMBERS)
      | _ => poolOk pool c
  | .Penguin => false

/-- Modelled from the spec: independent defaulting of the three optional
generation parameters, stated for comparison with the bundled match of
Penguin::generate_password. -/
def resolveMixerIndep (complexity : Option ComplexityLevel)
    (use_whole_words : Option Bool) (length : Option Nat) : PenguinMixer :=
  PenguinMixer.new (complexity.getD .Medium) (use_whole_words.getD true)
    (length.getD 12)

/-- A concrete rng stream (all draws 0) used by witnesses and
counterexamples. -/
def constRng : Rng := ⟨fun _ => 0, 0⟩

example : all_chars.length = 70 := by decide

example : utf8Len 'é' = 2 := by decide

lemma utf8Len_pos (c : Char) : 0 < utf8Len c := by
  unfold utf8Len
  split
  · exact Nat.one_pos
  · split
    · exact Nat.zero_lt_two
    · split
      · exact Nat.zero_lt_succ _
      · exact Nat.zero_lt_succ _

lemma byteLen_append (a b : RStr) : byteLen (a ++ b) = byteLen a + byteLen b := by
  simp [byteLen]

lemma byteLen_snoc (a : RStr) (c : Char) :
    byteLen (a ++ [c]) = byteLen a + utf8Len c := by
  simp [byteLen]

lemma oneByte_nil : oneByte ([] : RStr) := by
  intro c hc
  simp at hc

lemma oneByte_append {a b : RStr} (ha : oneByte a) (hb : oneByte b) :
    oneByte (a ++ b) := by
  intro c hc
  rcases List.mem_append.1 hc with h | h
  · exact ha c h
  · exact hb c h

lemma oneByte_byteLen {s : RStr} (h : oneByte s) : byteLen s = s.length := by
  induction s with
  | nil => rfl
  | cons c cs ih =>
      have hc : utf8Len c = 1 := h c (List.mem_cons_self c cs)
      have ih' := ih (fun x hx => h x (List.mem_cons_of_mem c hx))
      simp only [byteLen, List.map_cons, List.sum_cons, List.length_cons] at *
      omega

lemma getD_mem_of_lt : ∀ (l : List α) (i : Nat) (d : α), i < l.length →
    l.getD i d ∈ l
  | [], _, _, h => absurd h (by simp)
  | a :: l, 0, _, _ => List.mem_cons_self a l
  | a :: l, i + 1, d, h =>
      List.mem_cons_of_mem a (getD_mem_of_lt l i d (by simpa using h))

lemma getD_eq_default : ∀ (l : List α) (i : Nat) (d : α), l.length ≤ i →
    l.getD i d = d
  | [], _, _, _ => rfl
  | a :: l, 0, _, h => absurd h (by simp)
  | a :: l, i + 1, d, h => getD_eq_default l i d (by simpa using h)

lemma getD_append_lt : ∀ (l₁ l₂ : List α) (i : Nat) (d : α), i < l₁.length →
    (l₁ ++ l₂).getD i d = l₁.getD i d
  | [], _, _, _, h => absurd h (by simp)
  | a :: l, l₂, 0, _, _ => rfl
  | a :: l, l₂, i + 1, d, h => getD_append_lt l l₂ i d (by simpa using h)

lemma getD_append_len : ∀ (l₁ : List α) (c : α) (l₂ : List α) (d : α),
    (l₁ ++ c :: l₂).getD l₁.length d = c
  | [], _, _, _ => rfl
  | _ :: l, c, l₂, d => getD_append_len l c l₂ d

lemma genRange_lt (n : Nat) (hn : 0 < n) (r : Rng) : (genRange n r).1 < n :=
  Nat.mod_lt _ hn

lemma oneByte_NUMBERS : oneByte NUMBERS := by decide

lemma oneByte_SPECIAL : oneByte SPECIAL_CHARS := by decide

lemma oneByte_LOWERCASE : oneByte LOWERCASE := by decide

lemma oneByte_all_chars : oneByte all_chars := by decide

lemma cons_set_perm (l : List α) : ∀ (m : Nat) (h : m < l.length) (a : α),
    List.Perm (l.get ⟨m, h⟩ :: l.set m a) (a :: l) := by
  induction l with
  | nil => intro m h a; simp at h
  | cons x xs ih =>
      intro m h a
      cases m with
      | zero => simpa using List.Perm.swap a x xs
      | succ m =>
          have h' : m < xs.length := by simpa using h
          have step1 : List.Perm (xs.get ⟨m, h'⟩ :: x :: xs.set m a)
              (x :: xs.get ⟨m, h'⟩ :: xs.set m a) := List.Perm.swap _ _ _
          have step2 : List.Perm (x :: xs.get ⟨m, h'⟩ :: xs.set m a) (x :: a :: xs) :=
            (ih m h' a).cons x
          have step3 : List.Perm (x :: a :: xs) (a :: x :: xs) := List.Perm.swap _ _ _
          simpa using (step1.trans step2).trans step3

lemma set_set_get_perm (l : List α) : ∀ (i j : Nat) (hi : i < l.length)
    (hj : j < l.length), List.Perm ((l.set i (l.get ⟨j, hj⟩)).set j (l.get ⟨i, hi⟩)) l := by
  induction l with
  | nil => intro i j hi hj; simp at hi
  | cons x xs ih =>
      intro i j hi hj
      cases i with
      | zero =>
          cases j with
          | zero => simp
          | succ j =>
              have hj' : j < xs.length := by simpa using hj
              simpa using cons_set_perm xs j hj' x
      | succ i =>
          cases j with
          | zero =>
              have hi' : i < xs.length := by simpa using hi
              simpa using cons_set_perm xs i hi' x
          | succ j =>
              have hi' : i < xs.length := by simpa using hi
              have hj' : j < xs.length := by simpa using hj
              simpa using (ih i j hi' hj').cons x

lemma listSwap_perm (l : List α) (i j : Nat) : List.Perm (listSwap l i j) l := by
  unfold listSwap
  cases hi : l.get? i with
  | none => exact List.Perm.refl l
  | some a =>
      cases hj : l.get? j with
      | none => exact List.Perm.refl l
      | some b =>
          obtain ⟨hi', ha⟩ := List.get?_eq_some.1 hi
          obtain ⟨hj', hb⟩ := List.get?_eq_some.1 hj
          rw [← ha, ← hb]
          exact set_set_get_perm l i j hi' hj'

lemma fyGo_perm : ∀ (i : Nat) (l : List α) (r : Rng), List.Perm (fyGo l i r).1 l := by
  intro i
  induction i with
  | zero => intro l r; exact List.Perm.refl l
  | succ i ih =>
      intro l r
      simp only [fyGo]
      exact (ih _ _).trans (listSwap_perm l (i + 1) _)

lemma fisherYates_perm (l : List α) (r : Rng) : List.Perm (fisherYates l r).1 l :=
  fyGo_perm _ l r

lemma fisherYates_length (l : List α) (r : Rng) :
    (fisherYates l r).1.length = l.length :=
  (fisherYates_perm l r).length_eq

lemma penguinGo_spec : ∀ (n : Nat) (pw : RStr) (r : Rng),
    ∃ ext : RStr, (penguinGo n pw r).1 = pw ++ ext ∧ ext.length = n ∧
      (∀ i, i < n →
        ext.getD i ' ' = all_chars.getD (r.seq (r.pos + i) % all_chars.length) ' ') ∧
      (∀ c ∈ ext, c ∈ all_chars) := by
  intro n
  induction n with
  | zero =>
      intro pw r
      refine ⟨[], by simp [penguinGo], rfl, ?_, by simp⟩
      intro i hi
      omega
  | succ n ih =>
      intro pw r
      obtain ⟨ext, h1, h2, h3, h4⟩ :=
        ih (pw ++ [all_chars.getD (r.seq r.pos % all_chars.length) ' '])
          ⟨r.seq, r.pos + 1⟩
      refine ⟨all_chars.getD (r.seq r.pos % all_chars.length) ' ' :: ext, ?_, ?_, ?_, ?_⟩
      · simp only [penguinGo, genRange]
        rw [h1, List.append_assoc]
        rfl
      · simp [h2]
      · intro i hi
        cases i with
        | zero => simp
        | succ i =>
            have h := h3 i (by omega)
            have harith : r.pos + 1 + i = r.pos + (i + 1) := by omega
            simpa [harith] using h
      · intro c hc
        rcases List.mem_cons.1 hc with hc0 | hcm
        · rw [hc0]
          exact getD_mem_of_lt all_chars _ ' '
            (Nat.mod_lt _ (by decide : 0 < all_chars.length))
        · exact h4 c hcm

/-- C1: for every configuration (every complexity level including Penguin,
every length, either whole-words setting) and every rng stream,
mix_password applied to the empty base-word list returns the empty
string; the empty-input short-circuit precedes the Penguin branch. -/
theorem empty_words_empty_string (m : PenguinMixer) (r : Rng) :
    (mix_password m [] r).map Prod.fst = some [] := by
  simp [mix_password]

/-- C2: for Penguin complexity and any non-empty base-word list, regardless
of the configured length, whole-words flag and word contents, the result is
a string of exactly 64 characters, each drawn from the 70-character union of
the four classes; position i is determined by exactly one fresh rng draw
(the stream value at offset i) reduced modulo 70, which is the shallow
embedding of an independent uniform draw per position. -/
theorem penguin_max_security (m : PenguinMixer) (words : List RStr) (r : Rng)
    (hc : m.complexity = .Penguin) (hw : words ≠ []) :
    ∃ s : RStr, (mix_password m words r).map Prod.fst = some s ∧
      s.length = 64 ∧ all_chars.length = 70 ∧ (∀ c ∈ s, c ∈ all_chars) ∧
      ∀ i, i < 64 → s.getD i ' ' = all_chars.getD (r.seq (r.pos + i) % 70) ' ' := by
  obtain ⟨ext, h1, h2, h3, h4⟩ := penguinGo_spec 64 [] r
  have hne : words.isEmpty = false := by
    cases words with
    | nil => exact absurd rfl hw
    | cons a l => rfl
  refine ⟨ext, ?_, h2, by decide, h4, ?_⟩
  · simp only [mix_password, hne, hc, Bool.false_eq_true, if_false,
      generate_penguin_password, Option.map_some']
    rw [show (penguinGo 64 [] r).1 = ext by simpa using h1]
  · intro i hi
    have h := h3 i hi
    rwa [show all_chars.length = 70 by decide] at h

theorem penguin_max_security_witness :
    ∃ s : RStr,
      (mix_password ⟨5, .Penguin, true⟩ [['a']] constRng).map Prod.fst = some s ∧
      s.length = 64 ∧ all_chars.length = 70 ∧ (∀ c ∈ s, c ∈ all_chars) ∧
      ∀ i, i < 64 →
        s.getD i ' ' = all_chars.getD (constRng.seq (constRng.pos + i) % 70) ' ' :=
  penguin_max_security ⟨5, .Penguin, true⟩ [['a']] constRng rfl (by decide)

lemma oneByte_single {c : Char} (h : utf8Len c = 1) : oneByte [c] := by
  intro x hx
  rcases List.mem_singleton.1 hx with rfl
  exact h

lemma oneByte_pair {a b : Char} (ha : utf8Len a = 1) (hb : utf8Len b = 1) :
    oneByte [a, b] := by
  intro x hx
  rcases List.mem_cons.1 hx with rfl | hx
  · exact ha
  · rcases List.mem_singleton.1 hx with rfl
    exact hb

lemma getD_oneByte_of (l : RStr) (hl : oneByte l) {i : Nat} (hi : i < l.length)
    (d : Char) : utf8Len (l.getD i d) = 1 :=
  hl _ (getD_mem_of_lt l i d hi)

lemma oneByte_getD {base : List RStr} (hb : ∀ w ∈ base, oneByte w) (idx : Nat) :
    oneByte (base.getD idx []) := by
  rcases Nat.lt_or_ge idx base.length with hidx | hidx
  · exact hb _ (getD_mem_of_lt base idx [] hidx)
  · rw [getD_eq_default base idx [] hidx]
    exact oneByte_nil

lemma wholeLoop_some (len : Nat) (comp : ComplexityLevel) (ww : Bool)
    (hc : comp ≠ .Penguin) (base : List RStr) (hb : ∀ w ∈ base, oneByte w) :
    ∀ (avail : List Nat) (pw : RStr) (r : Rng), oneByte pw →
    ∃ pw' r', wholeLoop ⟨len, comp, ww⟩ base avail pw r = some (pw', r') ∧
      oneByte pw' := by
  intro avail
  induction avail with
  | nil => intro pw r h; exact ⟨pw, r, rfl, h⟩
  | cons idx rest ih =>
      intro pw r h
      have hword : oneByte (base.getD idx []) := oneByte_getD hb idx
      by_cases hlen : byteLen pw < len
      · cases comp with
        | Basic =>
            simp only [wholeLoop]
            rw [if_pos hlen]
            exact ih _ _ (oneByte_append (oneByte_append h hword)
              (oneByte_single (getD_oneByte_of NUMBERS oneByte_NUMBERS
                (genRange_lt _ (by decide) r) ' ')))
        | Medium =>
            simp only [wholeLoop]
            rw [if_pos hlen]
            exact ih _ _ (oneByte_append (oneByte_append h hword)
              (oneByte_pair
                (getD_oneByte_of SPECIAL_CHARS oneByte_SPECIAL
                  (genRange_lt _ (by decide) r) ' ')
                (getD_oneByte_of NUMBERS oneByte_NUMBERS
                  (genRange_lt _ (by decide) _) ' ')))
        | Hard =>
            simp only [wholeLoop]
            rw [if_pos hlen]
            exact ih _ _ (oneByte_append (oneByte_append h hword)
              (oneByte_pair
                (getD_oneByte_of SPECIAL_CHARS oneByte_SPECIAL
                  (genRange_lt _ (by decide) r) ' ')
                (getD_oneByte_of NUMBERS oneByte_NUMBERS
                  (genRange_lt _ (by decide) _) ' ')))
        | Penguin => exact absurd rfl hc
      · simp only [wholeLoop]
        rw [if_neg hlen]
        exact ⟨pw, r, rfl, h⟩

lemma padLoopF_spec (len : Nat) : ∀ (fuel : Nat) (pw : RStr) (r : Rng),
    oneByte pw → len ≤ byteLen pw + fuel →
    oneByte (padLoopF len fuel pw r).1 ∧ len ≤ byteLen (padLoopF len fuel pw r).1 := by
  intro fuel
  induction fuel with
  | zero =>
      intro pw r h hle
      exact ⟨h, by simpa using hle⟩
  | succ fuel ih =>
      intro pw r h hle
      simp only [padLoopF]
      by_cases hlen : byteLen pw < len
      · rw [if_pos hlen]
        have hch : utf8Len (all_chars.getD (genRange all_chars.length r).1 ' ') = 1 :=
          getD_oneByte_of all_chars oneByte_all_chars (genRange_lt _ (by decide) r) ' '
        apply ih
        · exact oneByte_append h (oneByte_single hch)
        · rw [byteLen_snoc, hch]
          omega
      · rw [if_neg hlen]
        exact ⟨h, by show len ≤ byteLen pw; omega⟩

lemma posInv_snoc {comp : ComplexityLevel} {pool : RStr} {pw : RStr} {c : Char}
    (h : ∀ i, i < pw.length → posOk comp pool i (pw.getD i ' ') = true)
    (hc : posOk comp pool pw.length c = true) :
    ∀ i, i < (pw ++ [c]).length →
      posOk comp pool i ((pw ++ [c]).getD i ' ') = true := by
  intro i hi
  rcases Nat.lt_or_ge i pw.length with hlt | hge
  · rw [getD_append_lt pw [c] i ' ' hlt]
    exact h i hlt
  · have hieq : i = pw.length := by
      simp at hi
      omega
    subst hieq
    rw [getD_append_len pw c [] ' ']
    exact hc

lemma charMixLoopF_strong (len : Nat) (comp : ComplexityLevel) (ww : Bool)
    (hc : comp ≠ .Penguin) (pool : RStr) (hp : oneByte pool) :
    ∀ (fuel : Nat) (pw : RStr) (r : Rng), oneByte pw →
    (∀ i, i < pw.length → posOk comp pool i (pw.getD i ' ') = true) →
    ∃ pw' r', charMixLoopF ⟨len, comp, ww⟩ pool fuel pw r = some (pw', r') ∧
      oneByte pw' ∧ (len ≤ byteLen pw + fuel → len ≤ byteLen pw') ∧
      (∀ i, i < pw'.length → posOk comp pool i (pw'.getD i ' ') = true) := by
  intro fuel
  induction fuel with
  | zero =>
      intro pw r h hpos
      exact ⟨pw, r, rfl, h, fun hx => by omega, hpos⟩
  | succ fuel ih =>
      intro pw r h hpos
      have hBL : byteLen pw = pw.length := oneByte_byteLen h
      by_cases hlen : byteLen pw < len
      case neg =>
        simp only [charMixLoopF]
        rw [if_neg hlen]
        exact ⟨pw, r, rfl, h, fun _ => by omega, hpos⟩
      case pos =>
      have key : ∀ (ch : Char) (r' : Rng), utf8Len ch = 1 →
          posOk comp pool pw.length ch = true →
          ∃ pw' r'', charMixLoopF ⟨len, comp, ww⟩ pool fuel (pw ++ [ch]) r' =
            some (pw', r'') ∧ oneByte pw' ∧
            (len ≤ byteLen pw + (fuel + 1) → len ≤ byteLen pw') ∧
            (∀ i, i < pw'.length → posOk comp pool i (pw'.getD i ' ') = true) := by
        intro ch r' h1 h2
        obtain ⟨pw', r'', e1, e2, e3, e4⟩ :=
          ih (pw ++ [ch]) r' (oneByte_append h (oneByte_single h1))
            (posInv_snoc hpos h2)
        refine ⟨pw', r'', e1, e2, ?_, e4⟩
        intro hx
        apply e3
        rw [byteLen_snoc, h1]
        omega
      cases comp with
      | Penguin => exact absurd rfl hc
      | Basic =>
          simp only [charMixLoopF]
          rw [if_pos hlen]
          by_cases h4 : byteLen pw % 4 = 0
          · rw [if_pos h4]
            exact key _ _
              (getD_oneByte_of NUMBERS oneByte_NUMBERS (genRange_lt _ (by decide) r) ' ')
              (by
                simp only [posOk]
                rw [if_pos (by omega : pw.length % 4 = 0)]
                exact decide_eq_true (getD_mem_of_lt NUMBERS _ ' '
                  (genRange_lt _ (by decide) r)))
          · rw [if_neg h4]
            by_cases hpe : pool.isEmpty
            · simp only [hpe, Bool.not_true, Bool.false_eq_true, if_false]
              exact key _ _
                (getD_oneByte_of LOWERCASE oneByte_LOWERCASE
                  (genRange_lt _ (by decide) r) ' ')
                (by
                  simp only [posOk]
                  rw [if_neg (by omega : ¬ pw.length % 4 = 0)]
                  simp only [poolOk, hpe, if_true]
                  exact decide_eq_true (getD_mem_of_lt LOWERCASE _ ' '
                    (genRange_lt _ (by decide) r)))
            · have hpe' : pool.isEmpty = false := Bool.eq_false_iff.mpr hpe
              have hplen : 0 < pool.length := by
                cases pool with
                | nil => simp at hpe'
                | cons a l => simp
              simp only [hpe', Bool.not_false, if_true]
              exact key _ _ (getD_oneByte_of pool hp (genRange_lt _ hplen r) ' ')
                (by
                  simp only [posOk]
                  rw [if_neg (by omega : ¬ pw.length % 4 = 0)]
                  simp only [poolOk, hpe', Bool.false_eq_true, if_false]
                  exact decide_eq_true (getD_mem_of_lt pool _ ' '
                    (genRange_lt _ hplen r)))
      | Medium =>
          simp only [charMixLoopF]
          rw [if_pos hlen]
          cases h4 : byteLen pw % 4 with
          | zero =>
              exact key _ _
                (getD_oneByte_of SPECIAL_CHARS oneByte_SPECIAL
                  (genRange_lt _ (by decide) r) ' ')
                (by
                  simp only [posOk]
                  rw [show pw.length % 4 = 0 by omega]
                  exact decide_eq_true (getD_mem_of_lt SPECIAL_CHARS _ ' '
                    (genRange_lt _ (by decide) r)))
          | succ k =>
              cases k with
              | zero =>
                  exact key _ _
                    (getD_oneByte_of NUMBERS oneByte_NUMBERS
                      (genRange_lt _ (by decide) r) ' ')
                    (by
                      simp only [posOk]
                      rw [show pw.length % 4 = 1 by omega]
                      exact decide_eq_true (getD_mem_of_lt NUMBERS _ ' '
                        (genRange_lt _ (by decide) r)))
              | succ k2 =>
                  by_cases hpe : pool.isEmpty
                  · simp only [hpe, Bool.not_true, Bool.false_eq_true, if_false]
                    exact key _ _
                      (getD_oneByte_of LOWERCASE oneByte_LOWERCASE
                        (genRange_lt _ (by decide) r) ' ')
                      (by
                        simp only [posOk]
                        rw [show pw.length % 4 = k2 + 2 by omega]
                        simp only [poolOk, hpe, if_true]
                        exact decide_eq_true (getD_mem_of_lt LOWERCASE _ ' '
                          (genRange_lt _ (by decide) r)))
                  · have hpe' : pool.isEmpty = false := Bool.eq_false_iff.mpr hpe
                    have hplen : 0 < pool.length := by
                      cases pool with
                      | nil => simp at hpe'
                      | cons a l => simp
                    simp only [hpe', Bool.not_false, if_true]
                    exact key _ _ (getD_oneByte_of pool hp (genRange_lt _ hplen r) ' ')
                      (by
                        simp only [posOk]
                        rw [show pw.length % 4 = k2 + 2 by omega]
                        simp only [poolOk, hpe', Bool.false_eq_true, if_false]
                        exact decide_eq_true (getD_mem_of_lt pool _ ' '
                          (genRange_lt _ hplen r)))
      | Hard =>
          simp only [charMixLoopF]
          rw [if_pos hlen]
          cases h4 : byteLen pw % 4 with
          | zero =>
              exact key _ _
                (getD_oneByte_of SPECIAL_CHARS oneByte_SPECIAL
                  (genRange_lt _ (by decide) r) ' ')
                (by
                  simp only [posOk]
                  rw [show pw.length % 4 = 0 by omega]
                  exact decide_eq_true (getD_mem_of_lt SPECIAL_CHARS _ ' '
                    (genRange_lt _ (by decide) r)))
          | succ k =>
              cases k with
              | zero =>
                  exact key _ _
                    (getD_oneByte_of NUMBERS oneByte_NUMBERS
                      (genRange_lt _ (by decide) r) ' ')
                    (by
                      simp only [posOk]
                      rw [show pw.length % 4 = 1 by omega]
                      exact decide_eq_true (getD_mem_of_lt NUMBERS _ ' '
                        (genRange_lt _ (by decide) r)))
              | succ k2 =>
                  by_cases hpe : pool.isEmpty
                  · simp only [hpe, Bool.not_true, Bool.false_eq_true, if_false]
                    exact key _ _
                      (getD_oneByte_of LOWERCASE oneByte_LOWERCASE
                        (genRange_lt _ (by decide) r) ' ')
                      (by
                        simp only [posOk]
                        rw [show pw.length % 4 = k2 + 2 by omega]
                        simp only [poolOk, hpe, if_true]
                        exact decide_eq_true (getD_mem_of_lt LOWERCASE _ ' '
                          (genRange_lt _ (by decide) r)))
                  · have hpe' : pool.isEmpty = false := Bool.eq_false_iff.mpr hpe
                    have hplen : 0 < pool.length := by
                      cases pool with
                      | nil => simp at hpe'
                      | cons a l => simp
                    simp only [hpe', Bool.not_false, if_true]
                    exact key _ _ (getD_oneByte_of pool hp (genRange_lt _ hplen r) ' ')
                      (by
                        simp only [posOk]
                        rw [show pw.length % 4 = k2 + 2 by omega]
                        simp only [poolOk, hpe', Bool.false_eq_true, if_false]
                        exact decide_eq_true (getD_mem_of_lt pool _ ' '
                          (genRange_lt _ hplen r)))

lemma truncGo_oneByte : ∀ (s : RStr) (n : Nat), oneByte s → n ≤ s.length →
    truncGo s n = some (s.take n) := by
  intro s
  induction s with
  | nil =>
      intro n h hn
      have : n = 0 := by simpa using hn
      subst this
      rfl
  | cons c cs ih =>
      intro n h hn
      cases n with
      | zero => rfl
      | succ n =>
          have hc : utf8Len c = 1 := h c (List.mem_cons_self c cs)
          simp only [truncGo, hc]
          rw [if_pos (by omega : (1 : Nat) ≤ n + 1)]
          rw [show n + 1 - 1 = n by omega]
          rw [ih n (fun x hx => h x (List.mem_cons_of_mem c hx)) (by simpa using hn)]
          simp

lemma truncateRStr_oneByte (s : RStr) (n : Nat) (h : oneByte s) :
    truncateRStr s n = some (s.take n) := by
  unfold truncateRStr
  by_cases hn : n < byteLen s
  · rw [if_pos hn]
    exact truncGo_oneByte s n h (by rw [← oneByte_byteLen h]; omega)
  · rw [if_neg hn]
    have hsl : s.length ≤ n := by rw [← oneByte_byteLen h]; omega
    rw [List.take_of_length_le hsl]

lemma finishRegular_len (len : Nat) (comp : ComplexityLevel) (ww : Bool)
    (pw : RStr) (r : Rng) (h1 : oneByte pw) (h2 : len ≤ byteLen pw) :
    ∃ s r', finishRegular ⟨len, comp, ww⟩ pw r = some (s, r') ∧ s.length = len := by
  have hBL : byteLen pw = pw.length := oneByte_byteLen h1
  have htr : truncateRStr pw len = some (pw.take len) := truncateRStr_oneByte pw len h1
  have hlen : (pw.take len).length = len := by
    rw [List.length_take]
    omega
  cases comp with
  | Hard =>
      simp only [finishRegular, htr]
      refine ⟨(fisherYates (pw.take len) r).1, (fisherYates (pw.take len) r).2, rfl, ?_⟩
      rw [fisherYates_length, hlen]
  | Basic =>
      simp only [finishRegular, htr]
      exact ⟨_, _, rfl, hlen⟩
  | Medium =>
      simp only [finishRegular, htr]
      exact ⟨_, _, rfl, hlen⟩
  | Penguin =>
      simp only [finishRegular, htr]
      exact ⟨_, _, rfl, hlen⟩

lemma oneByte_pool {base : List RStr} (hb : ∀ w ∈ base, oneByte w)
    (avail : List Nat) :
    oneByte ((avail.map (fun idx => base.getD idx [])).flatten) := by
  intro c hc
  obtain ⟨s, hs, hcs⟩ := List.mem_flatten.1 hc
  obtain ⟨idx, _, rfl⟩ := List.mem_map.1 hs
  exact oneByte_getD hb idx c hcs

lemma generate_regular_len (len : Nat) (comp : ComplexityLevel) (ww : Bool)
    (hc : comp ≠ .Penguin) (base : List RStr) (hb : ∀ w ∈ base, oneByte w)
    (r : Rng) :
    ∃ s r', generate_regular_password ⟨len, comp, ww⟩ base r = some (s, r') ∧
      s.length = len := by
  cases ww with
  | true =>
      obtain ⟨pw1, r1, hwl, hob⟩ := wholeLoop_some len comp true hc base hb
        (fisherYates (List.range base.length) r).1 []
        (fisherYates (List.range base.length) r).2 oneByte_nil
      have hpad := padLoopF_spec len (len - byteLen pw1) pw1 r1 hob (by omega)
      simp only [generate_regular_password, if_pos, hwl, Option.some_bind]
      obtain ⟨s, r2, hfin, hslen⟩ := finishRegular_len len comp true
        (padLoopF len (len - byteLen pw1) pw1 r1).1
        (padLoopF len (len - byteLen pw1) pw1 r1).2 hpad.1 hpad.2
      exact ⟨s, r2, by simpa [padLoop] using hfin, hslen⟩
  | false =>
      have hpool := oneByte_pool hb (fisherYates (List.range base.length) r).1
      obtain ⟨pw1, r1, hcm, hob, himp, _⟩ := charMixLoopF_strong len comp false hc
        _ hpool len [] (fisherYates (List.range base.length) r).2 oneByte_nil
        (by intro i hi; simp at hi)
      obtain ⟨s, r2, hfin, hslen⟩ := finishRegular_len len comp false pw1 r1 hob
        (himp (by simp [byteLen]))
      refine ⟨s, r2, ?_, hslen⟩
      simp only [generate_regular_password, charMixLoop, Bool.false_eq_true, if_false]
      rw [show (⟨len, comp, false⟩ : PenguinMixer).length - byteLen [] = len by
        simp [byteLen]]
      rw [hcm]
      exact hfin

/-- C3 (amended): for every non-Penguin complexity, positive configured
length and non-empty base-word list whose words are all ASCII (one UTF-8
byte per char), mix_password returns a string of exactly the configured
length, for every rng stream.  The ASCII restriction is forced: the code
measures and truncates in UTF-8 bytes, so multi-byte words yield fewer
characters (see the counterexample). -/
theorem regular_length_exact (m : PenguinMixer) (words : List RStr) (r : Rng)
    (hc : m.complexity ≠ .Penguin) (hl : 0 < m.length) (hw : words ≠ [])
    (ha : ∀ w ∈ words, oneByte w) :
    ∃ s : RStr, (mix_password m words r).map Prod.fst = some s ∧
      s.length = m.length := by
  obtain ⟨len, comp, ww⟩ := m
  have hne : words.isEmpty = false := by
    cases words with
    | nil => exact absurd rfl hw
    | cons a l => rfl
  obtain ⟨s, r', hg, hlen⟩ := generate_regular_len len comp ww hc words ha r
  refine ⟨s, ?_, hlen⟩
  cases comp with
  | Penguin => exact absurd rfl hc
  | Basic =>
      simp only [mix_password, hne, Bool.false_eq_true, if_false, hg, Option.map_some']
  | Medium =>
      simp only [mix_password, hne, Bool.false_eq_true, if_false, hg, Option.map_some']
  | Hard =>
      simp only [mix_password, hne, Bool.false_eq_true, if_false, hg, Option.map_some']

/-- C3 counterexample: with the single base word "éé" (2 chars, 4 UTF-8
bytes), Basic whole-word generation at configured length 5 stops after one
word plus one digit separator (5 bytes) and returns a string of only 3
characters, not 5. -/
theorem regular_length_cex :
    ((mix_password ⟨5, .Basic, true⟩ [['é', 'é']] constRng).map
      (fun p => p.1.length)) = some 3 := by decide

theorem regular_length_exact_witness :
    ∃ s : RStr,
      (mix_password ⟨5, .Basic, true⟩ [['a', 'b']] constRng).map Prod.fst = some s ∧
      s.length = (⟨5, .Basic, true⟩ : PenguinMixer).length :=
  regular_length_exact ⟨5, .Basic, true⟩ [['a', 'b']] constRng (by decide)
    (by decide) (by decide) (by decide)

/-- C4 (code bug): mix_password is not total.  With the single base word
"é" (2 UTF-8 bytes), character-mixing Basic at length 2 builds "0é"
(3 bytes) and String::truncate(2) panics, because byte index 2 falls inside
the encoding of the char at byte offsets 1 and 2; the embedding returns
none exactly where the Rust code aborts. -/
theorem truncate_panics_on_multibyte :
    (mix_password ⟨2, .Basic, false⟩ [['é']] constRng).isNone = true := by decide

lemma wholeLoop_stop (m : PenguinMixer) (base : List RStr) (avail : List Nat)
    (pw : RStr) (r : Rng) (h : ¬ byteLen pw < m.length) :
    wholeLoop m base avail pw r = some (pw, r) := by
  cases avail with
  | nil => rfl
  | cons idx rest =>
      simp only [wholeLoop]
      rw [if_neg h]

lemma finishRegular_zero (comp : ComplexityLevel) (ww : Bool) (r : Rng) :
    (finishRegular ⟨0, comp, ww⟩ [] r).map Prod.fst = some [] := by
  cases comp <;> rfl

lemma generate_regular_zero (comp : ComplexityLevel) (ww : Bool)
    (base : List RStr) (r : Rng) :
    (generate_regular_password ⟨0, comp, ww⟩ base r).map Prod.fst = some [] := by
  cases ww with
  | true =>
      simp only [generate_regular_password]
      rw [wholeLoop_stop _ _ _ _ _ (by simp [byteLen])]
      exact finishRegular_zero comp true (fisherYates (List.range base.length) r).2
  | false =>
      simp only [generate_regular_password]
      exact finishRegular_zero comp false (fisherYates (List.range base.length) r).2

/-- C5 counterexample: with Penguin complexity, a configured length of 0 is
ignored and a 64-character password is still produced, so the claim fails
as stated for Penguin configurations. -/
theorem length_zero_penguin_cex :
    ((mix_password ⟨0, .Penguin, true⟩ [['a']] constRng).map
      (fun p => p.1.length)) = some 64 := by decide

/-- C5 (amended): for every configuration with a non-Penguin complexity and
length 0, and every base-word list and rng stream, mix_password returns the
empty string (length 0 is accepted, not an error). -/
theorem length_zero_empty (m : PenguinMixer) (words : List RStr) (r : Rng)
    (hl : m.length = 0) (hc : m.complexity ≠ .Penguin) :
    (mix_password m words r).map Prod.fst = some [] := by
  obtain ⟨len, comp, ww⟩ := m
  have hl0 : len = 0 := hl
  subst hl0
  cases words with
  | nil => simp [mix_password]
  | cons w ws =>
      cases comp with
      | Penguin => exact absurd rfl hc
      | Basic => exact generate_regular_zero .Basic ww (w :: ws) r
      | Medium => exact generate_regular_zero .Medium ww (w :: ws) r
      | Hard => exact generate_regular_zero .Hard ww (w :: ws) r

theorem length_zero_empty_witness :
    (mix_password ⟨0, .Basic, true⟩ [['a']] constRng).map Prod.fst = some [] :=
  length_zero_empty ⟨0, .Basic, true⟩ [['a']] constRng rfl (by decide)

lemma wholeLoop_interleave_aux (len : Nat) (comp : ComplexityLevel) (ww : Bool)
    (hc : comp ≠ .Penguin) (base : List RStr) :
    ∀ (avail : List Nat), (∀ i ∈ avail, i < base.length) →
    ∀ (pw : RStr) (r : Rng),
    ∃ ws seps r', wholeLoop ⟨len, comp, ww⟩ base avail pw r =
        some (pw ++ interleave ws seps, r') ∧
      seps.length = ws.length ∧ (∀ w ∈ ws, w ∈ base) ∧
      (∀ s ∈ seps, sepOk comp s) := by
  intro avail
  induction avail with
  | nil =>
      intro _ pw r
      exact ⟨[], [], r, by simp [wholeLoop, interleave], rfl, by simp, by simp⟩
  | cons idx rest ih =>
      intro hav pw r
      have hidx : idx < base.length := hav idx (List.mem_cons_self _ _)
      have hav' : ∀ i ∈ rest, i < base.length :=
        fun i hi => hav i (List.mem_cons_of_mem _ hi)
      by_cases hlen : byteLen pw < len
      · cases comp with
        | Penguin => exact absurd rfl hc
        | Basic =>
            simp only [wholeLoop]
            rw [if_pos hlen]
            obtain ⟨ws, seps, r', he, hl2, hmem, hsep⟩ := ih hav'
              (pw ++ base.getD idx [] ++
                [NUMBERS.getD (genRange NUMBERS.length r).1 ' '])
              (genRange NUMBERS.length r).2
            refine ⟨base.getD idx [] :: ws,
              [NUMBERS.getD (genRange NUMBERS.length r).1 ' '] :: seps, r', ?_,
              by simp [hl2], ?_, ?_⟩
            · rw [he]
              simp [interleave, List.append_assoc]
            · intro w hw
              rcases List.mem_cons.1 hw with rfl | hw
              · exact getD_mem_of_lt base idx [] hidx
              · exact hmem w hw
            · intro s hs
              rcases List.mem_cons.1 hs with rfl | hs
              · exact ⟨_, getD_mem_of_lt NUMBERS _ ' ' (genRange_lt _ (by decide) r),
                  rfl⟩
              · exact hsep s hs
        | Medium =>
            simp only [wholeLoop]
            rw [if_pos hlen]
            obtain ⟨ws, seps, r', he, hl2, hmem, hsep⟩ := ih hav'
              (pw ++ base.getD idx [] ++
                [SPECIAL_CHARS.getD (genRange SPECIAL_CHARS.length r).1 ' ',
                 NUMBERS.getD (genRange NUMBERS.length (genRange SPECIAL_CHARS.length r).2).1 ' '])
              (genRange NUMBERS.length (genRange SPECIAL_CHARS.length r).2).2
            refine ⟨base.getD idx [] :: ws,
              [SPECIAL_CHARS.getD (genRange SPECIAL_CHARS.length r).1 ' ',
               NUMBERS.getD (genRange NUMBERS.length (genRange SPECIAL_CHARS.length r).2).1 ' '] :: seps,
              r', ?_, by simp [hl2], ?_, ?_⟩
            · rw [he]
              simp [interleave, List.append_assoc]
            · intro w hw
              rcases List.mem_cons.1 hw with rfl | hw
              · exact getD_mem_of_lt base idx [] hidx
              · exact hmem w hw
            · intro s hs
              rcases List.mem_cons.1 hs with rfl | hs
              · exact ⟨_, getD_mem_of_lt SPECIAL_CHARS _ ' '
                  (genRange_lt _ (by decide) r), _,
                  getD_mem_of_lt NUMBERS _ ' ' (genRange_lt _ (by decide) _), rfl⟩
              · exact hsep s hs
        | Hard =>
            simp only [wholeLoop]
            rw [if_pos hlen]
            obtain ⟨ws, seps, r', he, hl2, hmem, hsep⟩ := ih hav'
              (pw ++ base.getD idx [] ++
                [SPECIAL_CHARS.getD (genRange SPECIAL_CHARS.length r).1 ' ',
                 NUMBERS.getD (genRange NUMBERS.length (genRange SPECIAL_CHARS.length r).2).1 ' '])
              (genRange NUMBERS.length (genRange SPECIAL_CHARS.length r).2).2
            refine ⟨base.getD idx [] :: ws,
              [SPECIAL_CHARS.getD (genRange SPECIAL_CHARS.length r).1 ' ',
               NUMBERS.getD (genRange NUMBERS.length (genRange SPECIAL_CHARS.length r).2).1 ' '] :: seps,
              r', ?_, by simp [hl2], ?_, ?_⟩
            · rw [he]
              simp [interleave, List.append_assoc]
            · intro w hw
              rcases List.mem_cons.1 hw with rfl | hw
              · exact getD_mem_of_lt base idx [] hidx
              · exact hmem w hw
            · intro s hs
              rcases List.mem_cons.1 hs with rfl | hs
              · exact ⟨_, getD_mem_of_lt SPECIAL_CHARS _ ' '
                  (genRange_lt _ (by decide) r), _,
                  getD_mem_of_lt NUMBERS _ ' ' (genRange_lt _ (by decide) _), rfl⟩
              · exact hsep s hs
      · simp only [wholeLoop]
        rw [if_neg hlen]
        exact ⟨[], [], r, by simp [interleave], rfl, by simp, by simp⟩

/-- C6: in whole-word mode with a non-Penguin complexity, the string built
by the word loop (before padding, truncation and any final shuffle) is
exactly the interleaving of the used words, each drawn from the base list,
with one separator apiece: one random digit under Basic, one random special
char followed by one random digit under Medium and Hard. -/
theorem wholewords_interleave (m : PenguinMixer) (base : List RStr)
    (avail : List Nat) (r : Rng) (hc : m.complexity ≠ .Penguin)
    (hav : ∀ i ∈ avail, i < base.length) :
    ∃ ws seps r', wholeLoop m base avail [] r = some (interleave ws seps, r') ∧
      seps.length = ws.length ∧ (∀ w ∈ ws, w ∈ base) ∧
      ∀ s ∈ seps, sepOk m.complexity s := by
  obtain ⟨len, comp, ww⟩ := m
  obtain ⟨ws, seps, r', he, h2, h3, h4⟩ :=
    wholeLoop_interleave_aux len comp ww hc base avail hav [] r
  exact ⟨ws, seps, r', by simpa using he, h2, h3, h4⟩

theorem wholewords_interleave_witness :
    ∃ ws seps r',
      wholeLoop ⟨9, .Medium, true⟩ [['h', 'i']] [0] [] constRng =
        some (interleave ws seps, r') ∧
      seps.length = ws.length ∧ (∀ w ∈ ws, w ∈ [['h', 'i']]) ∧
      ∀ s ∈ seps, sepOk (⟨9, .Medium, true⟩ : PenguinMixer).complexity s :=
  wholewords_interleave ⟨9, .Medium, true⟩ [['h', 'i']] [0] constRng (by decide)
    (by decide)

/-- C7 (amended): in character-mixing mode with a non-Penguin complexity,
whenever the combined word pool is all-ASCII (one byte per char, as forced
by the counterexample: the cycle is keyed on UTF-8 byte length), every
position i of the built string carries the class of the 4-position cycle:
Basic puts a digit at i mod 4 = 0 and pool chars (lowercase fallback for an
empty pool) elsewhere; Medium and Hard put a special char at 0, a digit at
1 and pool chars (lowercase fallback) at 2 and 3. -/
theorem charmix_cycle (m : PenguinMixer) (pool : RStr) (r : Rng)
    (hc : m.complexity ≠ .Penguin) (hp : oneByte pool) :
    ∃ s r', charMixLoop m pool [] r = some (s, r') ∧
      ∀ i, i < s.length → posOk m.complexity pool i (s.getD i ' ') = true := by
  obtain ⟨len, comp, ww⟩ := m
  obtain ⟨s, r', he, _, _, hposf⟩ := charMixLoopF_strong len comp ww hc pool hp
    (len - byteLen []) [] r oneByte_nil (by intro i hi; simp at hi)
  exact ⟨s, r', he, hposf⟩

/-- C7 counterexample: with the 2-byte pool char 'é' (base word "é"),
Medium character mixing at length 8 builds the string "!0é!0é"; its
position 3 (3 mod 4 = 3, so the claim requires a pool character) is '!',
a special character, because the cycle is keyed on the byte length, which
reaches 4 after only three characters. -/
theorem charmix_cycle_cex :
    (charMixLoop ⟨8, .Medium, false⟩ ['é'] [] constRng).map Prod.fst =
      some ['!', '0', 'é', '!', '0', 'é'] ∧
    posOk .Medium ['é'] 3 '!' = false := by decide

theorem charmix_cycle_witness :
    ∃ s r', charMixLoop ⟨6, .Basic, false⟩ ['a', 'b'] [] constRng = some (s, r') ∧
      ∀ i, i < s.length →
        posOk (⟨6, .Basic, false⟩ : PenguinMixer).complexity ['a', 'b'] i
          (s.getD i ' ') = true :=
  charmix_cycle ⟨6, .Basic, false⟩ ['a', 'b'] constRng (by decide) (by decide)

lemma wholeLoop_hard_medium (len : Nat) (w1 w2 : Bool) (base : List RStr) :
    ∀ (avail : List Nat) (pw : RStr) (r : Rng),
      wholeLoop ⟨len, .Hard, w1⟩ base avail pw r =
      wholeLoop ⟨len, .Medium, w2⟩ base avail pw r := by
  intro avail
  induction avail with
  | nil => intro pw r; rfl
  | cons idx rest ih =>
      intro pw r
      simp only [wholeLoop]
      by_cases hlen : byteLen pw < len
      · rw [if_pos hlen, if_pos hlen]
        exact ih _ _
      · rw [if_neg hlen, if_neg hlen]

lemma charMixLoopF_hard_medium (len : Nat) (w1 w2 : Bool) (pool : RStr) :
    ∀ (fuel : Nat) (pw : RStr) (r : Rng),
      charMixLoopF ⟨len, .Hard, w1⟩ pool fuel pw r =
      charMixLoopF ⟨len, .Medium, w2⟩ pool fuel pw r := by
  intro fuel
  induction fuel with
  | zero => intro pw r; rfl
  | succ fuel ih =>
      intro pw r
      simp only [charMixLoopF]
      by_cases hlen : byteLen pw < len
      · rw [if_pos hlen, if_pos hlen]
        cases h4 : byteLen pw % 4 with
        | zero => exact ih _ _
        | succ k =>
            cases k with
            | zero => exact ih _ _
            | succ k2 =>
                by_cases hpe : (!pool.isEmpty) = true
                · rw [if_pos hpe, if_pos hpe]
                  exact ih _ _
                · rw [if_neg hpe, if_neg hpe]
                  exact ih _ _
      · rw [if_neg hlen, if_neg hlen]

lemma padLoop_complexity (len : Nat) (c1 c2 : ComplexityLevel) (w1 w2 : Bool)
    (pw : RStr) (r : Rng) :
    padLoop ⟨len, c1, w1⟩ pw r = padLoop ⟨len, c2, w2⟩ pw r := rfl

lemma charMixLoop_hard_medium (len : Nat) (w1 w2 : Bool) (pool pw : RStr)
    (r : Rng) :
    charMixLoop ⟨len, .Hard, w1⟩ pool pw r =
    charMixLoop ⟨len, .Medium, w2⟩ pool pw r :=
  charMixLoopF_hard_medium len w1 w2 pool (len - byteLen pw) pw r

lemma finishRegular_hard_medium (len : Nat) (w1 w2 : Bool) (pw : RStr)
    (r : Rng) :
    finishRegular ⟨len, .Hard, w1⟩ pw r =
      (finishRegular ⟨len, .Medium, w2⟩ pw r).map (fun p => fisherYates p.1 p.2) := by
  unfold finishRegular
  cases truncateRStr pw len with
  | none => rfl
  | some pwt => rfl

lemma generate_regular_hard_medium_eq (len : Nat) (ww : Bool) (base : List RStr)
    (r : Rng) :
    generate_regular_password ⟨len, .Hard, ww⟩ base r =
      (generate_regular_password ⟨len, .Medium, ww⟩ base r).map
        (fun p => fisherYates p.1 p.2) := by
  cases ww with
  | true =>
      have e1 : generate_regular_password ⟨len, .Hard, true⟩ base r =
          (wholeLoop ⟨len, .Hard, true⟩ base (fisherYates (List.range base.length) r).1
            [] (fisherYates (List.range base.length) r).2).bind fun q =>
            finishRegular ⟨len, .Hard, true⟩ (padLoop ⟨len, .Hard, true⟩ q.1 q.2).1
              (padLoop ⟨len, .Hard, true⟩ q.1 q.2).2 := rfl
      have e2 : generate_regular_password ⟨len, .Medium, true⟩ base r =
          (wholeLoop ⟨len, .Medium, true⟩ base (fisherYates (List.range base.length) r).1
            [] (fisherYates (List.range base.length) r).2).bind fun q =>
            finishRegular ⟨len, .Medium, true⟩ (padLoop ⟨len, .Medium, true⟩ q.1 q.2).1
              (padLoop ⟨len, .Medium, true⟩ q.1 q.2).2 := rfl
      rw [e1, e2, wholeLoop_hard_medium len true true base]
      cases wholeLoop ⟨len, .Medium, true⟩ base (fisherYates (List.range base.length) r).1
          [] (fisherYates (List.range base.length) r).2 with
      | none => rfl
      | some q =>
          simp only [Option.some_bind]
          rw [padLoop_complexity len .Hard .Medium true true q.1 q.2]
          exact finishRegular_hard_medium len true true _ _
  | false =>
      have e1 : generate_regular_password ⟨len, .Hard, false⟩ base r =
          (charMixLoop ⟨len, .Hard, false⟩
            ((fisherYates (List.range base.length) r).1.map
              (fun idx => base.getD idx [])).flatten []
            (fisherYates (List.range base.length) r).2).bind fun q =>
            finishRegular ⟨len, .Hard, false⟩ q.1 q.2 := rfl
      have e2 : generate_regular_password ⟨len, .Medium, false⟩ base r =
          (charMixLoop ⟨len, .Medium, false⟩
            ((fisherYates (List.range base.length) r).1.map
              (fun idx => base.getD idx [])).flatten []
            (fisherYates (List.range base.length) r).2).bind fun q =>
            finishRegular ⟨len, .Medium, false⟩ q.1 q.2 := rfl
      rw [e1, e2, charMixLoop_hard_medium len false false _ []
        (fisherYates (List.range base.length) r).2]
      cases charMixLoop ⟨len, .Medium, false⟩
          ((fisherYates (List.range base.length) r).1.map
            (fun idx => base.getD idx [])).flatten []
          (fisherYates (List.range base.length) r).2 with
      | none => rfl
      | some q =>
          simp only [Option.some_bind]
          exact finishRegular_hard_medium len false false _ _

/-- C8: for Hard complexity, either strategy and non-empty base words, any
string mix_password returns is a character-multiset permutation of the
string the same run returns under Medium complexity - which is exactly the
truncated pre-shuffle string, since Medium and Hard share every generation
step and differ only in the final shuffle, and shuffling preserves the
character multiset. -/
theorem hard_perm_of_medium (len : Nat) (ww : Bool) (words : List RStr)
    (r : Rng) (s : RStr) (hw : words ≠ [])
    (h : (mix_password ⟨len, .Hard, ww⟩ words r).map Prod.fst = some s) :
    ∃ t : RStr,
      (mix_password ⟨len, .Medium, ww⟩ words r).map Prod.fst = some t ∧
      (s : Multiset Char) = (t : Multiset Char) := by
  have hne : words.isEmpty = false := by
    cases words with
    | nil => exact absurd rfl hw
    | cons a l => rfl
  simp only [mix_password, hne, Bool.false_eq_true, if_false] at h ⊢
  rcases Option.eq_none_or_eq_some
      (generate_regular_password ⟨len, .Medium, ww⟩ words r) with hm | ⟨p, hm⟩
  · rw [generate_regular_hard_medium_eq, hm] at h
    simp at h
  · rw [generate_regular_hard_medium_eq, hm] at h
    simp only [Option.map_some'] at h
    rw [hm]
    simp only [Option.map_some']
    refine ⟨p.1, rfl, ?_⟩
    rw [← Option.some.inj h]
    exact Multiset.coe_eq_coe.mpr (fisherYates_perm p.1 p.2)

theorem hard_perm_of_medium_witness :
    ∃ t : RStr,
      (mix_password ⟨4, .Medium, false⟩ [['a', 'b']] constRng).map Prod.fst =
        some t ∧
      ((['0', 'a', 'a', '!'] : RStr) : Multiset Char) = (t : Multiset Char) :=
  hard_perm_of_medium 4 false [['a', 'b']] constRng ['0', 'a', 'a', '!']
    (by decide) (by decide)

/-- C9: generate_password with all three options unset runs the generation
loop with the bundle default configuration Medium / whole words / 12; with
only the length set to 20 it runs with Medium / whole words / 20; and
whenever at least one option is set, the mixer match resolves each unset
field independently to Medium / true / 12. -/
theorem generate_password_defaults :
    (∀ (base : List RStr) (count : Nat) (r : Rng),
      generate_password base count none none none r =
        genLoop ⟨12, .Medium, true⟩ base count r) ∧
    (∀ (base : List RStr) (count : Nat) (r : Rng),
      generate_password base count none none (some 20) r =
        genLoop ⟨20, .Medium, true⟩ base count r) ∧
    ∀ (c : Option ComplexityLevel) (u : Option Bool) (l : Option Nat),
      (c ≠ none ∨ u ≠ none ∨ l ≠ none) →
      resolveMixer c u l =
        PenguinMixer.new (c.getD .Medium) (u.getD true) (l.getD 12) := by
  refine ⟨fun base count r => rfl, fun base count r => rfl, ?_⟩
  intro c u l h
  match c, u, l with
  | none, none, none => rcases h with h | h | h <;> exact absurd rfl h
  | some c, u, l => rfl
  | none, some u, l => rfl
  | none, none, some l => rfl

theorem generate_password_defaults_witness :
    resolveMixer (some .Basic) none none =
      PenguinMixer.new ((some ComplexityLevel.Basic).getD .Medium)
        ((none : Option Bool).getD true) ((none : Option Nat).getD 12) :=
  generate_password_defaults.2.2 (some .Basic) none none (Or.inl (by decide))

/-- C10: the bundled default and independent defaulting are equivalent:
PenguinMixer::default() equals PenguinMixer::new(Medium, true, 12), and the
mixer-selection match of generate_password agrees with purely independent
defaulting on every triple of optional arguments, so the all-unset bundle
branch produces no observably different configuration. -/
theorem bundle_default_equiv :
    PenguinMixer.default = PenguinMixer.new .Medium true 12 ∧
    ∀ (c : Option ComplexityLevel) (u : Option Bool) (l : Option Nat),
      resolveMixer c u l = resolveMixerIndep c u l := by
  refine ⟨rfl, ?_⟩
  intro c u l
  match c, u, l with
  | none, none, none => rfl
  | some c, u, l => rfl
  | none, some u, l => rfl
  | none, none, some l => rfl
